import Mathlib

/-
Verification of the ModelConverter core (src/main.cpp): the bone-weight
assignment and normalization (`AddBoneWeight`, `NormalizeWeights`), the
binary mesh packing (`processMesh` output layout), and the skeleton
topological sort (`processSkeleton`).

Machine `float` values are modelled as exact rationals (`ℚ`); the float
literals `1e-6f` and `G_SCALE_FACTOR = 0.01f` become `1/1000000` and
`1/100`.  Fixed-size C arrays become lists; `size_t → uint32_t` casts
become `% 2 ^ 32`.
-/

namespace ModelConverter

/-- Model of the C++ `Vertex` struct (src/main.cpp:31-38).  The four float
arrays and the two 4-slot bone-influence arrays become lists; length
well-formedness (3/2/3/3/4/4) is carried as hypotheses where it matters. -/
structure Vertex where
  position : List ℚ
  texcoord : List ℚ
  normal : List ℚ
  tangent : List ℚ
  boneIDs : List Int
  weights : List ℚ
deriving DecidableEq

/-- A vertex as default-initialised by the C++ struct: all floats `0`,
bone slots `-1`, weights `0`. -/
def freshVertex : Vertex :=
  { position := [0, 0, 0], texcoord := [0, 0], normal := [0, 0, 0], tangent := [0, 0, 0],
    boneIDs := [-1, -1, -1, -1], weights := [0, 0, 0, 0] }

/-- The scan `for (i = 0; i < 4; ++i) if (v.boneIDs[i] < 0)` from
`AddBoneWeight` (src/main.cpp:54), unrolled over the constant loop bound 4:
the first slot holding a negative id. -/
def firstEmptySlot (v : Vertex) : Option Nat :=
  if v.boneIDs.getD 0 0 < 0 then some 0
  else if v.boneIDs.getD 1 0 < 0 then some 1
  else if v.boneIDs.getD 2 0 < 0 then some 2
  else if v.boneIDs.getD 3 0 < 0 then some 3
  else none

/-- The scan `minIdx = 0; for (i = 1; i < 4; ++i) if (w[i] < w[minIdx])`
from `AddBoneWeight` (src/main.cpp:55), unrolled over the constant loop
bound: the first index of the minimum weight. -/
def minWeightIdx (v : Vertex) : Nat :=
  let m1 := if v.weights.getD 1 0 < v.weights.getD 0 0 then 1 else 0
  let m2 := if v.weights.getD 2 0 < v.weights.getD m1 0 then 2 else m1
  if v.weights.getD 3 0 < v.weights.getD m2 0 then 3 else m2

/-- `AddBoneWeight` (src/main.cpp:53-57): fill the first negative slot,
otherwise evict the smallest weight when the incoming weight exceeds it. -/
def addBoneWeight (v : Vertex) (boneId : Int) (w : ℚ) : Vertex :=
  match firstEmptySlot v with
  | some i => { v with boneIDs := v.boneIDs.set i boneId, weights := v.weights.set i w }
  | none =>
      let minIdx := minWeightIdx v
      if v.weights.getD minIdx 0 < w then
        { v with boneIDs := v.boneIDs.set minIdx boneId, weights := v.weights.set minIdx w }
      else v

/-- A finite sequence of `AddBoneWeight` calls applied to a vertex. -/
def applyCalls (v : Vertex) (calls : List (Int × ℚ)) : Vertex :=
  calls.foldl (fun v c => addBoneWeight v c.1 c.2) v

/-- The sum `w[0] + w[1] + w[2] + w[3]` from `NormalizeWeights` (src/main.cpp:60). -/
def weightSum (v : Vertex) : ℚ :=
  v.weights.getD 0 0 + v.weights.getD 1 0 + v.weights.getD 2 0 + v.weights.getD 3 0

/-- `NormalizeWeights` (src/main.cpp:59-62): if the sum exceeds `1e-6`
multiply every weight by its inverse, otherwise leave the vertex alone. -/
def normalizeWeights (v : Vertex) : Vertex :=
  if 1 / 1000000 < weightSum v then
    { v with weights := v.weights.map (fun x => x * (1 / weightSum v)) }
  else v

/-- One 32-bit record of the binary mesh stream written by `processMesh`
(src/main.cpp:182-188): an unsigned count/index, a float field, or a
signed bone id.  The stream is modelled word-by-word in file order. -/
inductive PackWord
  | u32 (n : Nat)
  | f32 (q : ℚ)
  | i32 (z : Int)
deriving DecidableEq

/-- The fields of one `Vertex` record in their fixed declaration order. -/
def vertexWords (v : Vertex) : List PackWord :=
  v.position.map PackWord.f32 ++ v.texcoord.map PackWord.f32 ++ v.normal.map PackWord.f32 ++
    v.tangent.map PackWord.f32 ++ v.boneIDs.map PackWord.i32 ++ v.weights.map PackWord.f32

/-- The three-field `MeshHeader` (src/main.cpp:40-44) as it is written:
`(uint32_t)vertices.size()`, `(uint32_t)indices.size()`, `materialIndex`. -/
def headerWords (vertexCount indexCount materialIndex : Nat) : List PackWord :=
  [PackWord.u32 (vertexCount % 2 ^ 32), PackWord.u32 (indexCount % 2 ^ 32),
    PackWord.u32 materialIndex]

/-- The binary mesh blob written by `processMesh` (src/main.cpp:184-187):
header, then the vertex records, then the uint32 indices. -/
def packMesh (vertices : List Vertex) (indices : List Nat) (materialIndex : Nat) :
    List PackWord :=
  PackWord.u32 (vertices.length % 2 ^ 32) :: PackWord.u32 (indices.length % 2 ^ 32) ::
    PackWord.u32 materialIndex ::
      ((vertices.map vertexWords).flatten ++ indices.map PackWord.u32)

/-- Reading the three leading uint32 counts back from a packed stream. -/
def unpackHeader : List PackWord → Option (Nat × Nat × Nat)
  | PackWord.u32 a :: PackWord.u32 b :: PackWord.u32 c :: _ => some (a, b, c)
  | _ => none

/-- The inner weight loop of `processMesh` (src/main.cpp:171-173) for one
bone: each influence record indexes the vertex list directly at its vertex
id and calls `AddBoneWeight` there; `none` models an out-of-range access
(the C++ code performs no bounds check). -/
def applyBoneInfluences (finalId : Int) (vertices : List Vertex)
    (recs : List (Nat × ℚ)) : Option (List Vertex) :=
  recs.foldl
    (fun acc r =>
      acc.bind (fun vs =>
        if h : r.1 < vs.length then
          some (vs.set r.1 (addBoneWeight (vs.get ⟨r.1, h⟩) finalId r.2))
        else none))
    (some vertices)

/-- The bone loop of `processMesh` (src/main.cpp:166-175): bones whose name
is missing from the final bone map are skipped, the rest contribute their
influence records. -/
def applyMeshBones (boneMap : String → Option Nat) (vertices : List Vertex)
    (meshBones : List (String × List (Nat × ℚ))) : Option (List Vertex) :=
  meshBones.foldl
    (fun acc b =>
      acc.bind (fun vs =>
        match boneMap b.1 with
        | some finalId => applyBoneInfluences (Int.ofNat finalId) vs b.2
        | none => some vs))
    (some vertices)

theorem getD_map_mul (l : List ℚ) (a : ℚ) (i : Nat) :
    (l.map (fun x => x * a)).getD i 0 = l.getD i 0 * a := by
  rcases Nat.lt_or_ge i l.length with h | h
  · rw [List.getD_eq_getElem _ _ (by simpa using h), List.getD_eq_getElem _ _ h]
    simp
  · rw [List.getD_eq_default _ _ (by simpa using h), List.getD_eq_default _ _ h]
    simp

/-- C3 (amended): after any finite sequence of `AddBoneWeight` calls on a
fresh vertex, running `NormalizeWeights` once leaves the weights summing
exactly to `1`, unless the pre-normalization sum was at most the `1e-6`
threshold, in which case the vertex is left completely unchanged (so an
influence-free vertex keeps its four zero weights). -/
theorem normalize_weight_sum (calls : List (Int × ℚ)) :
    weightSum (normalizeWeights (applyCalls freshVertex calls)) = 1 ∨
      (weightSum (applyCalls freshVertex calls) ≤ 1 / 1000000 ∧
        normalizeWeights (applyCalls freshVertex calls) = applyCalls freshVertex calls) := by
  set v := applyCalls freshVertex calls with hv
  by_cases h : (1 / 1000000 : ℚ) < weightSum v
  · left
    have hs : weightSum v ≠ 0 := by
      intro h0
      rw [h0] at h
      norm_num at h
    rw [normalizeWeights, if_pos h]
    show (v.weights.map (fun x => x * (1 / weightSum v))).getD 0 0 +
        (v.weights.map (fun x => x * (1 / weightSum v))).getD 1 0 +
        (v.weights.map (fun x => x * (1 / weightSum v))).getD 2 0 +
        (v.weights.map (fun x => x * (1 / weightSum v))).getD 3 0 = 1
    rw [getD_map_mul, getD_map_mul, getD_map_mul, getD_map_mul]
    have hsum : v.weights.getD 0 0 * (1 / weightSum v) + v.weights.getD 1 0 * (1 / weightSum v) +
        v.weights.getD 2 0 * (1 / weightSum v) + v.weights.getD 3 0 * (1 / weightSum v) =
        weightSum v * (1 / weightSum v) := by
      rw [weightSum]
      ring
    rw [hsum]
    field_simp
  · right
    refine ⟨le_of_not_lt h, ?_⟩
    rw [normalizeWeights, if_neg h]

/-- C3 counterexample: a single `AddBoneWeight` call with the tiny weight
`1e-7` leaves a vertex whose weights are neither all zero nor (after
`NormalizeWeights`) summing to `1` within `1e-5`: the sum stays `1e-7`. -/
theorem normalize_claim_counterexample :
    ¬ ((∀ w ∈ (normalizeWeights (applyCalls freshVertex [(0, 1 / 10000000)])).weights, w = 0) ∨
        |weightSum (normalizeWeights (applyCalls freshVertex [(0, 1 / 10000000)])) - 1| ≤
          1 / 100000) := by
  have hv : applyCalls freshVertex [(0, 1 / 10000000)] =
      { freshVertex with boneIDs := [0, -1, -1, -1], weights := [1 / 10000000, 0, 0, 0] } := rfl
  have hsum : weightSum (applyCalls freshVertex [(0, 1 / 10000000)]) = 1 / 10000000 := by
    rw [hv, weightSum]
    norm_num
  have hnorm : normalizeWeights (applyCalls freshVertex [(0, 1 / 10000000)]) =
      applyCalls freshVertex [(0, 1 / 10000000)] := by
    rw [normalizeWeights, if_neg]
    rw [hsum]
    norm_num
  rw [hnorm, hsum, hv]
  intro hor
  rcases hor with hall | habs
  · have := hall (1 / 10000000) (by simp)
    norm_num at this
  · rw [show (1 / 10000000 - 1 : ℚ) = -(9999999 / 10000000) by norm_num, abs_neg,
      abs_of_nonneg (by norm_num)] at habs
    norm_num at habs

theorem slot_neg_iff_eq_neg_one (v : Vertex) (hids : ∀ b ∈ v.boneIDs, -1 ≤ b) (k : Nat) :
    (v.boneIDs.getD k 0 < 0) ↔ (v.boneIDs.getD k 0 = -1) := by
  rcases Nat.lt_or_ge k v.boneIDs.length with h | h
  · rw [List.getD_eq_getElem _ _ h]
    have := hids _ (List.getElem_mem h)
    omega
  · rw [List.getD_eq_default _ _ h]
    omega

theorem firstEmptySlot_eq_some (v : Vertex) (i : Nat) (hi : firstEmptySlot v = some i) :
    i < 4 ∧ v.boneIDs.getD i 0 < 0 ∧ ∀ k < i, ¬ v.boneIDs.getD k 0 < 0 := by
  rw [firstEmptySlot] at hi
  split_ifs at hi with h1 h2 h3 h4
  · cases hi
    exact ⟨by omega, h1, fun k hk => by omega⟩
  · cases hi
    refine ⟨by omega, h2, fun k hk => ?_⟩
    interval_cases k
    · exact h1
  · cases hi
    refine ⟨by omega, h3, fun k hk => ?_⟩
    interval_cases k
    · exact h1
    · exact h2
  · cases hi
    refine ⟨by omega, h4, fun k hk => ?_⟩
    interval_cases k
    · exact h1
    · exact h2
    · exact h3

theorem minWeightIdx_spec (v : Vertex) :
    minWeightIdx v < 4 ∧
      ∀ k < 4, v.weights.getD (minWeightIdx v) 0 ≤ v.weights.getD k 0 := by
  rw [minWeightIdx]
  split_ifs with h1 h2 h3 h4 h5 h6 h7 <;>
    refine ⟨by norm_num, ?_⟩ <;>
    intro k hk <;>
    interval_cases k <;>
    linarith

/-- C4: binding the five influences `(0.1, 0.5, 0.05, 0.4, 0.3)` to one
fresh vertex retains exactly the four largest weights and drops `0.05`;
and in general `AddBoneWeight` fills the first `-1` slot when one exists,
and otherwise replaces a smallest-weight slot exactly when the incoming
weight strictly exceeds it, discarding the influence otherwise. -/
theorem addBoneWeight_topFour :
    ((applyCalls freshVertex
          [(10, 1 / 10), (11, 1 / 2), (12, 1 / 20), (13, 2 / 5), (14, 3 / 10)]).weights =
        [1 / 10, 1 / 2, 3 / 10, 2 / 5] ∧
      (1 / 20 : ℚ) ∉ (applyCalls freshVertex
          [(10, 1 / 10), (11, 1 / 2), (12, 1 / 20), (13, 2 / 5), (14, 3 / 10)]).weights) ∧
    ∀ (v : Vertex) (boneId : Int) (w : ℚ), (∀ b ∈ v.boneIDs, -1 ≤ b) →
      ((∃ k < 4, v.boneIDs.getD k 0 = -1) →
        ∃ i < 4, v.boneIDs.getD i 0 = -1 ∧ (∀ k < i, v.boneIDs.getD k 0 ≠ -1) ∧
          addBoneWeight v boneId w =
            { v with boneIDs := v.boneIDs.set i boneId, weights := v.weights.set i w }) ∧
      ((∀ k < 4, v.boneIDs.getD k 0 ≠ -1) →
        ∃ m < 4, (∀ k < 4, v.weights.getD m 0 ≤ v.weights.getD k 0) ∧
          (v.weights.getD m 0 < w →
            addBoneWeight v boneId w =
              { v with boneIDs := v.boneIDs.set m boneId, weights := v.weights.set m w }) ∧
          (¬ v.weights.getD m 0 < w → addBoneWeight v boneId w = v)) := by
  constructor
  · have hv4 : applyCalls freshVertex [(10, 1 / 10), (11, 1 / 2), (12, 1 / 20), (13, 2 / 5)] =
        { position := [0, 0, 0], texcoord := [0, 0], normal := [0, 0, 0], tangent := [0, 0, 0],
          boneIDs := [10, 11, 12, 13], weights := [1 / 10, 1 / 2, 1 / 20, 2 / 5] } := rfl
    have hstep : applyCalls freshVertex
        [(10, 1 / 10), (11, 1 / 2), (12, 1 / 20), (13, 2 / 5), (14, 3 / 10)] =
        addBoneWeight (applyCalls freshVertex
          [(10, 1 / 10), (11, 1 / 2), (12, 1 / 20), (13, 2 / 5)]) 14 (3 / 10) := rfl
    rw [hstep, hv4]
    have hmin : minWeightIdx
        { position := [0, 0, 0], texcoord := [0, 0], normal := [0, 0, 0], tangent := [0, 0, 0],
          boneIDs := [10, 11, 12, 13], weights := [1 / 10, 1 / 2, 1 / 20, 2 / 5] } = 2 := by
      rw [minWeightIdx]
      norm_num
    have hempty : firstEmptySlot
        { position := [0, 0, 0], texcoord := [0, 0], normal := [0, 0, 0], tangent := [0, 0, 0],
          boneIDs := [10, 11, 12, 13], weights := [1 / 10, 1 / 2, 1 / 20, 2 / 5] } =
        (none : Option Nat) := rfl
    rw [addBoneWeight, hempty, hmin]
    norm_num
  · intro v boneId w hids
    constructor
    · intro hex
      rcases hex with ⟨k, hk4, hkneg⟩
      have hsome : ∃ i, firstEmptySlot v = some i := by
        rw [firstEmptySlot]
        split_ifs with h1 h2 h3 h4
        · exact ⟨0, rfl⟩
        · exact ⟨1, rfl⟩
        · exact ⟨2, rfl⟩
        · exact ⟨3, rfl⟩
        · exfalso
          have hneg : v.boneIDs.getD k 0 < 0 := (slot_neg_iff_eq_neg_one v hids k).mpr hkneg
          interval_cases k <;> omega
      rcases hsome with ⟨i, hi⟩
      obtain ⟨hi4, hineg, hleast⟩ := firstEmptySlot_eq_some v i hi
      refine ⟨i, hi4, (slot_neg_iff_eq_neg_one v hids i).mp hineg, ?_, ?_⟩
      · intro j hj
        rw [Ne, ← slot_neg_iff_eq_neg_one v hids]
        exact hleast j hj
      · rw [addBoneWeight, hi]
    · intro hfull
      have hnone : firstEmptySlot v = none := by
        have h0 := hfull 0 (by omega)
        have h1 := hfull 1 (by omega)
        have h2 := hfull 2 (by omega)
        have h3 := hfull 3 (by omega)
        rw [Ne, ← slot_neg_iff_eq_neg_one v hids] at h0 h1 h2 h3
        rw [firstEmptySlot, if_neg h0, if_neg h1, if_neg h2, if_neg h3]
      refine ⟨minWeightIdx v, (minWeightIdx_spec v).1, (minWeightIdx_spec v).2, ?_, ?_⟩
      · intro hlt
        rw [addBoneWeight, hnone]
        simp only []
        rw [if_pos hlt]
      · intro hnlt
        rw [addBoneWeight, hnone]
        simp only []
        rw [if_neg hnlt]

/-- C7: mesh packing is a pure function of the finalized vertex list, index
list and material index: equal inputs give identical output, the stream is
exactly the three-uint32 header followed by the vertex records and then the
uint32 indices, and reading the header back recovers the original vertex
and index counts (the counts fitting in 32 bits). -/
theorem packMesh_deterministic (vertices vertices2 : List Vertex) (indices indices2 : List Nat)
    (materialIndex materialIndex2 : Nat)
    (hv : vertices.length < 2 ^ 32) (hi : indices.length < 2 ^ 32)
    (hveq : vertices2 = vertices) (hieq : indices2 = indices)
    (hmeq : materialIndex2 = materialIndex) :
    packMesh vertices2 indices2 materialIndex2 = packMesh vertices indices materialIndex ∧
    packMesh vertices indices materialIndex =
      headerWords vertices.length indices.length materialIndex ++
        ((vertices.map vertexWords).flatten ++ indices.map PackWord.u32) ∧
    unpackHeader (packMesh vertices indices materialIndex) =
      some (vertices.length, indices.length, materialIndex) := by
  subst hveq
  subst hieq
  subst hmeq
  refine ⟨rfl, rfl, ?_⟩
  show some (vertices2.length % 2 ^ 32, indices2.length % 2 ^ 32, materialIndex2) =
    some (vertices2.length, indices2.length, materialIndex2)
  rw [Nat.mod_eq_of_lt hv, Nat.mod_eq_of_lt hi]

theorem applyBoneInfluences_total (finalId : Int) :
    ∀ (recs : List (Nat × ℚ)) (vertices : List Vertex),
      (∀ r ∈ recs, r.1 < vertices.length) →
      ∃ vs, applyBoneInfluences finalId vertices recs = some vs ∧
        vs.length = vertices.length := by
  intro recs
  induction recs with
  | nil => exact fun vertices _ => ⟨vertices, rfl, rfl⟩
  | cons r rest ih =>
      intro vertices h
      have hr : r.1 < vertices.length := h r (by simp)
      have hstep : applyBoneInfluences finalId vertices (r :: rest) =
          applyBoneInfluences finalId
            (vertices.set r.1 (addBoneWeight (vertices.get ⟨r.1, hr⟩) finalId r.2)) rest := by
        rw [applyBoneInfluences, List.foldl_cons]
        rw [show ((some vertices).bind fun vs =>
            if h : r.1 < vs.length then
              some (vs.set r.1 (addBoneWeight (vs.get ⟨r.1, h⟩) finalId r.2))
            else none) =
          some (vertices.set r.1 (addBoneWeight (vertices.get ⟨r.1, hr⟩) finalId r.2)) from by
            simp [Option.bind, dif_pos hr]]
        rfl
      rw [hstep]
      obtain ⟨vs, hvs, hlen⟩ := ih _ (by
        intro r' hr'
        rw [List.length_set]
        exact h r' (List.mem_cons_of_mem _ hr'))
      refine ⟨vs, hvs, ?_⟩
      rw [hlen, List.length_set]

/-- C9: in the bone-weight loop of `processMesh` the vertex list is indexed
directly by each influence record's vertex id; when every record's vertex
id is below the mesh's vertex count the whole loop stays in bounds (the
out-of-range branch, modelled as `none`, is unreachable) and the vertex
count is preserved. -/
theorem meshBones_indexing_in_bounds (boneMap : String → Option Nat) :
    ∀ (meshBones : List (String × List (Nat × ℚ))) (vertices : List Vertex),
      (∀ b ∈ meshBones, ∀ r ∈ b.2, r.1 < vertices.length) →
      ∃ vs, applyMeshBones boneMap vertices meshBones = some vs ∧
        vs.length = vertices.length := by
  intro meshBones
  induction meshBones with
  | nil => exact fun vertices _ => ⟨vertices, rfl, rfl⟩
  | cons b rest ih =>
      intro vertices h
      rcases hb : boneMap b.1 with _ | finalId
      · have hstep : applyMeshBones boneMap vertices (b :: rest) =
            applyMeshBones boneMap vertices rest := by
          rw [applyMeshBones, List.foldl_cons]
          rw [show ((some vertices).bind fun vs =>
              match boneMap b.1 with
              | some finalId => applyBoneInfluences (Int.ofNat finalId) vs b.2
              | none => some vs) = some vertices from by rw [Option.some_bind, hb]]
          rfl
        rw [hstep]
        exact ih vertices fun b' hb' => h b' (List.mem_cons_of_mem _ hb')
      · obtain ⟨vs1, hvs1, hlen1⟩ :=
          applyBoneInfluences_total (Int.ofNat finalId) b.2 vertices
            (h b (by simp))
        have hstep : applyMeshBones boneMap vertices (b :: rest) =
            applyMeshBones boneMap vs1 rest := by
          rw [applyMeshBones, List.foldl_cons]
          rw [show ((some vertices).bind fun vs =>
              match boneMap b.1 with
              | some finalId => applyBoneInfluences (Int.ofNat finalId) vs b.2
              | none => some vs) = some vs1 from by
            rw [Option.some_bind, hb]
            exact hvs1]
          rfl
        rw [hstep]
        obtain ⟨vs, hvs, hlen⟩ := ih vs1 (by
          intro b' hb' r' hr'
          rw [hlen1]
          exact h b' (List.mem_cons_of_mem _ hb') r' hr')
        exact ⟨vs, hvs, by rw [hlen, hlen1]⟩

/-- A 4x4 matrix in the column-vector naming of the imported math library:
`a4, b4, c4` are the first three entries of the last (translation) column. -/
structure Mat4 where
  a1 : ℚ
  a2 : ℚ
  a3 : ℚ
  a4 : ℚ
  b1 : ℚ
  b2 : ℚ
  b3 : ℚ
  b4 : ℚ
  c1 : ℚ
  c2 : ℚ
  c3 : ℚ
  c4 : ℚ
  d1 : ℚ
  d2 : ℚ
  d3 : ℚ
  d4 : ℚ
deriving DecidableEq

/-- The identity matrix: the value of a default-constructed `aiMatrix4x4`,
used when `FindBoneOffset` finds no offset for a bone name. -/
def idMat4 : Mat4 :=
  { a1 := 1, a2 := 0, a3 := 0, a4 := 0, b1 := 0, b2 := 1, b3 := 0, b4 := 0,
    c1 := 0, c2 := 0, c3 := 1, c4 := 0, d1 := 0, d2 := 0, d3 := 0, d4 := 1 }

/-- The global scale `G_SCALE_FACTOR = 0.01f` (src/main.cpp:29). -/
def gScaleFactor : ℚ := 1 / 100

/-- The unit correction applied to an emitted offset matrix
(src/main.cpp:238-241): scale only `a4`, `b4`, `c4`. -/
def scaleTranslation (m : Mat4) : Mat4 :=
  { m with a4 := m.a4 * gScaleFactor, b4 := m.b4 * gScaleFactor, c4 := m.c4 * gScaleFactor }

/-- The C++ `TempBoneInfo` (src/main.cpp:46-51): `parentIndex` is `-1` for a
root, otherwise the parent bone's original index. -/
structure TempBoneInfo where
  name : String
  originalIndex : Nat
  parentIndex : Int
  offsetMatrix : Mat4
deriving DecidableEq

/-- The mutable state of the sorting loop in `processSkeleton`
(src/main.cpp:215-229): `newIndices`, `added`, `sortedBones`, `addedCount`.
The two index-addressed vectors become functions out of `Nat`. -/
structure SortState where
  newIndex : Nat → Int
  added : Nat → Bool
  sortedBones : List TempBoneInfo
  addedCount : Nat

/-- The state before the first pass: `newIndices` value-initialised to `0`,
`added` all `false`, nothing sorted. -/
def initState : SortState :=
  { newIndex := fun _ => 0, added := fun _ => false, sortedBones := [], addedCount := 0 }

/-- The body of the inner `for` loop (src/main.cpp:220-228): skip a bone
already added; place a bone whose parent is `-1` or already added. -/
def boneStep (st : SortState) (bone : TempBoneInfo) : SortState :=
  if st.added bone.originalIndex then st
  else if bone.parentIndex = -1 ∨ st.added bone.parentIndex.toNat = true then
    { newIndex := fun j => if j = bone.originalIndex then (st.addedCount : Int) else st.newIndex j,
      added := fun j => if j = bone.originalIndex then true else st.added j,
      sortedBones := st.sortedBones ++ [bone],
      addedCount := st.addedCount + 1 }
  else st

/-- One full pass of the inner `for` loop over the unsorted bone list. -/
def runPass (bones : List TempBoneInfo) (st : SortState) : SortState :=
  bones.foldl boneStep st

/-- The `while ((size_t)addedCount < unsortedBones.size())` loop
(src/main.cpp:219-229), with an explicit pass budget: the C++ loop is
unbounded, so claims about it quantify over the budget (for acyclic inputs
`bones.length` passes are proved to finish; for cyclic inputs no budget
ever does, which is exactly the C++ non-termination). -/
def sortPasses (fuel : Nat) (bones : List TempBoneInfo) (st : SortState) : SortState :=
  match fuel with
  | 0 => st
  | Nat.succ f =>
      if st.addedCount < bones.length then sortPasses f bones (runPass bones st) else st

/-- The sorting loop run on the unsorted bone list with a budget of one
pass per bone, starting from the initial state. -/
def sortSkeleton (bones : List TempBoneInfo) : SortState :=
  sortPasses bones.length bones initState

/-- One bone of the emitted `skeleton.json` list (src/main.cpp:242-246):
`id` is the position in the sorted list, `parentId` the remapped parent
index (or `-1`), `offset` the translation-scaled offset matrix. -/
structure OutBone where
  id : Nat
  name : String
  parentId : Int
  offset : Mat4
deriving DecidableEq

/-- The body of the emission loop (src/main.cpp:232-247) for the bone at
position `i`: remap a non-root parent through `newIndices` and scale the
offset's translation column. -/
def emitBone (newIndex : Nat → Int) (i : Nat) (bone : TempBoneInfo) : OutBone :=
  { id := i, name := bone.name,
    parentId := if bone.parentIndex ≠ -1 then newIndex bone.parentIndex.toNat
      else bone.parentIndex,
    offset := scaleTranslation bone.offsetMatrix }

/-- The emission loop `for (i = 0; i < sortedBones.size(); ++i)` running
from position `i` upward. -/
def emitFrom (newIndex : Nat → Int) : Nat → List TempBoneInfo → List OutBone
  | _, [] => []
  | i, bone :: rest => emitBone newIndex i bone :: emitFrom newIndex (i + 1) rest

/-- `processSkeleton` (src/main.cpp:190-251) restricted to its algorithmic
core: sort the unsorted bone list, then emit the ordered bone records. -/
def processSkeleton (bones : List TempBoneInfo) : List OutBone :=
  emitFrom (sortSkeleton bones).newIndex 0 (sortSkeleton bones).sortedBones

/-- Parent and offset resolution for one bone-table entry
(src/main.cpp:201-213): `nodeParent name` models the combined query
"the name of the parent node of the node called `name`" on the scene's
node tree (`none` when the node is missing or has no parent);
`offsetOf` models `FindBoneOffset`, `none` when no mesh defines an offset
(the C++ then keeps the default-constructed identity). -/
def resolveBone (boneMap : List (String × Nat)) (nodeParent : String → Option String)
    (offsetOf : String → Option Mat4) (kv : String × Nat) : TempBoneInfo :=
  { name := kv.1, originalIndex := kv.2,
    parentIndex :=
      match nodeParent kv.1 with
      | some pname =>
          match (boneMap.find? (fun q => q.1 = pname)).map Prod.snd with
          | some pid => (pid : Int)
          | none => -1
      | none => -1,
    offsetMatrix := (offsetOf kv.1).getD idMat4 }

/-- Building `unsortedBones` (src/main.cpp:200-214): one `TempBoneInfo` per
bone-table entry, in the table's iteration order (the `std::map` is keyed
by name, so this order is ascending name order, not original-id order). -/
def buildUnsorted (boneMap : List (String × Nat)) (nodeParent : String → Option String)
    (offsetOf : String → Option Mat4) : List TempBoneInfo :=
  boneMap.map (resolveBone boneMap nodeParent offsetOf)

/-- Well-formedness of the unsorted bone list, as guaranteed by its
construction from the bone table: original indices are distinct and below
the bone count, and every parent index is `-1` or a valid original index. -/
def wfBones (bones : List TempBoneInfo) : Prop :=
  (∀ b ∈ bones, b.originalIndex < bones.length) ∧
    (bones.map (fun b => b.originalIndex)).Nodup ∧
    ∀ b ∈ bones, b.parentIndex = -1 ∨
      (0 ≤ b.parentIndex ∧ b.parentIndex.toNat < bones.length)

/-- Acyclicity of the parent relation: some ranking of original indices
strictly decreases from child to parent. -/
def Acyclic (bones : List TempBoneInfo) : Prop :=
  ∃ rank : Nat → Nat, ∀ b ∈ bones, b.parentIndex ≠ -1 →
    rank b.parentIndex.toNat < rank b.originalIndex

/-- Invariant of the sorting loop state: `addedCount` tracks the sorted
list, sorted bones come from the input with distinct original indices,
`added` flags exactly the sorted bones, `newIndices` records each sorted
bone's position, and every sorted bone's parent is placed earlier. -/
structure SortInv (bones : List TempBoneInfo) (st : SortState) : Prop where
  count_eq : st.addedCount = st.sortedBones.length
  sorted_sub : ∀ b ∈ st.sortedBones, b ∈ bones
  sorted_nodup : (st.sortedBones.map (fun b => b.originalIndex)).Nodup
  added_iff : ∀ b ∈ bones, (st.added b.originalIndex = true ↔ b ∈ st.sortedBones)
  added_dom : ∀ j, st.added j = true → ∃ b ∈ bones, b.originalIndex = j
  pos_eq : ∀ (i : Nat) (h : i < st.sortedBones.length),
    st.newIndex (st.sortedBones.get ⟨i, h⟩).originalIndex = (i : Int)
  newIndex_lt : ∀ j, st.added j = true →
    0 ≤ st.newIndex j ∧ st.newIndex j < (st.addedCount : Int)
  parent_lt : ∀ (i : Nat) (h : i < st.sortedBones.length),
    (st.sortedBones.get ⟨i, h⟩).parentIndex ≠ -1 →
    st.added (st.sortedBones.get ⟨i, h⟩).parentIndex.toNat = true ∧
      st.newIndex (st.sortedBones.get ⟨i, h⟩).parentIndex.toNat < (i : Int)

theorem initState_inv (bones : List TempBoneInfo) : SortInv bones initState := by
  refine ⟨rfl, ?_, ?_, ?_, ?_, ?_, ?_, ?_⟩
  · intro b hb
    cases hb
  · exact List.nodup_nil
  · intro b _
    simp [initState]
  · intro j hj
    simp [initState] at hj
  · intro i h
    simp [initState] at h
  · intro j hj
    simp [initState] at hj
  · intro i h
    simp [initState] at h

theorem orig_inj {bones : List TempBoneInfo} (hwf : wfBones bones) :
    ∀ b ∈ bones, ∀ c ∈ bones, b.originalIndex = c.originalIndex → b = c :=
  fun _ hb _ hc h => List.inj_on_of_nodup_map hwf.2.1 hb hc h

theorem orig_surj {bones : List TempBoneInfo} (hwf : wfBones bones) :
    ∀ j < bones.length, ∃ b ∈ bones, b.originalIndex = j := by
  intro j hj
  have hnd : (bones.map (fun b => b.originalIndex)).Nodup := hwf.2.1
  have hsub : (bones.map (fun b => b.originalIndex)).toFinset ⊆
      Finset.range bones.length := by
    intro x hx
    rw [List.mem_toFinset, List.mem_map] at hx
    obtain ⟨b, hb, rfl⟩ := hx
    exact Finset.mem_range.mpr (hwf.1 b hb)
  have hcard : (Finset.range bones.length).card ≤
      (bones.map (fun b => b.originalIndex)).toFinset.card := by
    rw [Finset.card_range, List.toFinset_card_of_nodup hnd, List.length_map]
  have heq := Finset.eq_of_subset_of_card_le hsub hcard
  have : j ∈ (bones.map (fun b => b.originalIndex)).toFinset := by
    rw [heq]
    exact Finset.mem_range.mpr hj
  rw [List.mem_toFinset, List.mem_map] at this
  obtain ⟨b, hb, hbj⟩ := this
  exact ⟨b, hb, hbj⟩

theorem boneStep_inv {bones : List TempBoneInfo} {st : SortState} (hwf : wfBones bones)
    {bone : TempBoneInfo} (hbone : bone ∈ bones) (hinv : SortInv bones st) :
    SortInv bones (boneStep st bone) := by
  rw [boneStep]
  by_cases h1 : st.added bone.originalIndex = true
  · rw [if_pos h1]
    exact hinv
  · rw [if_neg h1]
    by_cases h2 : bone.parentIndex = -1 ∨ st.added bone.parentIndex.toNat = true
    · rw [if_pos h2]
      have horig_not : bone.originalIndex ∉
          st.sortedBones.map (fun b => b.originalIndex) := by
        intro hmem
        rw [List.mem_map] at hmem
        obtain ⟨d, hd, hdo⟩ := hmem
        exact h1 (hdo ▸ (hinv.added_iff d (hinv.sorted_sub d hd)).mpr hd)
      refine ⟨?_, ?_, ?_, ?_, ?_, ?_, ?_, ?_⟩
      · simp [hinv.count_eq]
      ·
        intro b hb
        rcases List.mem_append.mp hb with hb | hb
        · exact hinv.sorted_sub b hb
        · rw [List.mem_singleton.mp hb]
          exact hbone
      ·
        rw [List.map_append, List.nodup_append]
        refine ⟨hinv.sorted_nodup, by simp, ?_⟩
        intro x hx hx2
        simp only [List.map_cons, List.map_nil, List.mem_singleton] at hx2
        subst hx2
        exact horig_not hx
      ·
        intro c hc
        by_cases hco : c.originalIndex = bone.originalIndex
        · have hcb : c = bone := orig_inj hwf c hc bone hbone hco
          subst hcb
          simp
        · show (if c.originalIndex = bone.originalIndex then true
              else st.added c.originalIndex) = true ↔ c ∈ st.sortedBones ++ [bone]
          rw [if_neg hco, List.mem_append, List.mem_singleton, hinv.added_iff c hc]
          constructor
          · exact Or.inl
          · rintro (h | h)
            · exact h
            · exact absurd (congrArg TempBoneInfo.originalIndex h) hco
      ·
        intro j hj
        by_cases hjo : j = bone.originalIndex
        · exact ⟨bone, hbone, hjo.symm⟩
        · refine hinv.added_dom j ?_
          have hj' : (if j = bone.originalIndex then true else st.added j) = true := hj
          rwa [if_neg hjo] at hj'
      ·
        intro i h
        by_cases hi : i < st.sortedBones.length
        · have hget : (st.sortedBones ++ [bone]).get ⟨i, h⟩ = st.sortedBones.get ⟨i, hi⟩ := by
            simp [List.get_eq_getElem, List.getElem_append_left hi]
          rw [hget]
          have hmem : st.sortedBones.get ⟨i, hi⟩ ∈ st.sortedBones :=
            List.get_mem st.sortedBones i hi
          have hadded : st.added (st.sortedBones.get ⟨i, hi⟩).originalIndex = true :=
            (hinv.added_iff _ (hinv.sorted_sub _ hmem)).mpr hmem
          have hne : (st.sortedBones.get ⟨i, hi⟩).originalIndex ≠ bone.originalIndex :=
            fun heq => h1 (heq ▸ hadded)
          show (if (st.sortedBones.get ⟨i, hi⟩).originalIndex = bone.originalIndex
              then (st.addedCount : Int)
              else st.newIndex (st.sortedBones.get ⟨i, hi⟩).originalIndex) = (i : Int)
          rw [if_neg hne]
          exact hinv.pos_eq i hi
        · have hieq : i = st.sortedBones.length := by
            have hlen : i < st.sortedBones.length + 1 := by
              simpa using h
            omega
          subst hieq
          have hget : (st.sortedBones ++ [bone]).get ⟨st.sortedBones.length, h⟩ = bone := by
            rw [List.get_eq_getElem]
            exact List.getElem_concat_length _ _ _ rfl _
          rw [hget]
          show (if bone.originalIndex = bone.originalIndex then (st.addedCount : Int)
              else st.newIndex bone.originalIndex) = (st.sortedBones.length : Int)
          rw [if_pos rfl, hinv.count_eq]
      ·
        intro j hj
        by_cases hjo : j = bone.originalIndex
        · subst hjo
          show 0 ≤ (if bone.originalIndex = bone.originalIndex then (st.addedCount : Int)
              else st.newIndex bone.originalIndex) ∧
            (if bone.originalIndex = bone.originalIndex then (st.addedCount : Int)
              else st.newIndex bone.originalIndex) < ((st.addedCount + 1 : Nat) : Int)
          rw [if_pos rfl]
          constructor
          · exact Int.ofNat_nonneg st.addedCount
          · push_cast
            omega
        · have hj' : st.added j = true := by
            have hx : (if j = bone.originalIndex then true else st.added j) = true := hj
            rwa [if_neg hjo] at hx
          obtain ⟨hge, hlt⟩ := hinv.newIndex_lt j hj'
          show 0 ≤ (if j = bone.originalIndex then (st.addedCount : Int) else st.newIndex j) ∧
            (if j = bone.originalIndex then (st.addedCount : Int) else st.newIndex j) <
              ((st.addedCount + 1 : Nat) : Int)
          rw [if_neg hjo]
          refine ⟨hge, ?_⟩
          push_cast
          omega
      ·
        intro i h hpar
        by_cases hi : i < st.sortedBones.length
        · have hget : (st.sortedBones ++ [bone]).get ⟨i, h⟩ = st.sortedBones.get ⟨i, hi⟩ := by
            simp [List.get_eq_getElem, List.getElem_append_left hi]
          rw [hget] at hpar ⊢
          obtain ⟨hadd, hlt⟩ := hinv.parent_lt i hi hpar
          have hpne : (st.sortedBones.get ⟨i, hi⟩).parentIndex.toNat ≠ bone.originalIndex :=
            fun heq => h1 (heq ▸ hadd)
          constructor
          · show (if (st.sortedBones.get ⟨i, hi⟩).parentIndex.toNat = bone.originalIndex
                then true else st.added (st.sortedBones.get ⟨i, hi⟩).parentIndex.toNat) = true
            rw [if_neg hpne]
            exact hadd
          · show (if (st.sortedBones.get ⟨i, hi⟩).parentIndex.toNat = bone.originalIndex
                then (st.addedCount : Int)
                else st.newIndex (st.sortedBones.get ⟨i, hi⟩).parentIndex.toNat) < (i : Int)
            rw [if_neg hpne]
            exact hlt
        · have hieq : i = st.sortedBones.length := by
            have hlen : i < st.sortedBones.length + 1 := by
              simpa using h
            omega
          subst hieq
          have hget : (st.sortedBones ++ [bone]).get ⟨st.sortedBones.length, h⟩ = bone := by
            rw [List.get_eq_getElem]
            exact List.getElem_concat_length _ _ _ rfl _
          rw [hget] at hpar ⊢
          rcases h2 with h2 | h2
          · exact absurd h2 hpar
          · have hpne : bone.parentIndex.toNat ≠ bone.originalIndex :=
              fun heq => h1 (heq ▸ h2)
            obtain ⟨hge, hlt⟩ := hinv.newIndex_lt _ h2
            constructor
            · show (if bone.parentIndex.toNat = bone.originalIndex then true
                  else st.added bone.parentIndex.toNat) = true
              rw [if_neg hpne]
              exact h2
            · show (if bone.parentIndex.toNat = bone.originalIndex then (st.addedCount : Int)
                  else st.newIndex bone.parentIndex.toNat) < (st.sortedBones.length : Int)
              rw [if_neg hpne, ← hinv.count_eq]
              exact hlt
    · rw [if_neg h2]
      exact hinv

theorem foldl_inv {bones : List TempBoneInfo} (hwf : wfBones bones) :
    ∀ (l : List TempBoneInfo), (∀ b ∈ l, b ∈ bones) → ∀ {st : SortState},
      SortInv bones st → SortInv bones (l.foldl boneStep st) := by
  intro l
  induction l with
  | nil => exact fun _ _ hinv => hinv
  | cons a t ih =>
      intro hsub st hinv
      rw [List.foldl_cons]
      exact ih (fun b hb => hsub b (List.mem_cons_of_mem _ hb))
        (boneStep_inv hwf (hsub a (List.mem_cons_self a t)) hinv)

theorem runPass_inv {bones : List TempBoneInfo} {st : SortState} (hwf : wfBones bones)
    (hinv : SortInv bones st) : SortInv bones (runPass bones st) :=
  foldl_inv hwf bones (fun _ hb => hb) hinv

theorem sortPasses_inv {bones : List TempBoneInfo} (hwf : wfBones bones) :
    ∀ (fuel : Nat) {st : SortState}, SortInv bones st →
      SortInv bones (sortPasses fuel bones st) := by
  intro fuel
  induction fuel with
  | zero => exact fun hinv => hinv
  | succ f ih =>
      intro st hinv
      rw [sortPasses]
      by_cases hlt : st.addedCount < bones.length
      · rw [if_pos hlt]
        exact ih (runPass_inv hwf hinv)
      · rw [if_neg hlt]
        exact hinv

theorem count_le_length {bones : List TempBoneInfo} {st : SortState}
    (hinv : SortInv bones st) : st.addedCount ≤ bones.length := by
  rw [hinv.count_eq]
  have hsub : (st.sortedBones.map (fun b => b.originalIndex)).toFinset ⊆
      (bones.map (fun b => b.originalIndex)).toFinset := by
    intro x hx
    rw [List.mem_toFinset, List.mem_map] at hx
    obtain ⟨b, hb, rfl⟩ := hx
    rw [List.mem_toFinset, List.mem_map]
    exact ⟨b, hinv.sorted_sub b hb, rfl⟩
  calc st.sortedBones.length
      = (st.sortedBones.map (fun b => b.originalIndex)).length := (List.length_map _ _).symm
    _ = (st.sortedBones.map (fun b => b.originalIndex)).toFinset.card :=
        (List.toFinset_card_of_nodup hinv.sorted_nodup).symm
    _ ≤ (bones.map (fun b => b.originalIndex)).toFinset.card := Finset.card_le_card hsub
    _ ≤ (bones.map (fun b => b.originalIndex)).length := List.toFinset_card_le _
    _ = bones.length := List.length_map _ _

theorem boneStep_count_le (st : SortState) (bone : TempBoneInfo) :
    st.addedCount ≤ (boneStep st bone).addedCount := by
  rw [boneStep]
  split_ifs <;> simp

theorem boneStep_added_mono (st : SortState) (bone : TempBoneInfo) {j : Nat}
    (h : st.added j = true) : (boneStep st bone).added j = true := by
  rw [boneStep]
  split_ifs with h1 h2
  · exact h
  · show (if j = bone.originalIndex then true else st.added j) = true
    split_ifs <;> simp [h]
  · exact h

theorem boneStep_added_new {st : SortState} {bone : TempBoneInfo} {j : Nat}
    (hnew : (boneStep st bone).added j = true) (hold : ¬ st.added j = true) :
    (boneStep st bone).addedCount = st.addedCount + 1 ∧
      (boneStep st bone).sortedBones = st.sortedBones ++ [bone] ∧
      j = bone.originalIndex := by
  rw [boneStep] at hnew ⊢
  split_ifs at hnew ⊢ with h1 h2
  · exact absurd hnew hold
  · have hj : (if j = bone.originalIndex then true else st.added j) = true := hnew
    by_cases hjo : j = bone.originalIndex
    · exact ⟨rfl, rfl, hjo⟩
    · rw [if_neg hjo] at hj
      exact absurd hj hold
  · exact absurd hnew hold

theorem foldl_count_le (l : List TempBoneInfo) (st : SortState) :
    st.addedCount ≤ (l.foldl boneStep st).addedCount := by
  induction l generalizing st with
  | nil => exact le_refl _
  | cons a t ih =>
      rw [List.foldl_cons]
      exact le_trans (boneStep_count_le st a) (ih _)

theorem foldl_added_mono (l : List TempBoneInfo) (st : SortState) {j : Nat}
    (h : st.added j = true) : (l.foldl boneStep st).added j = true := by
  induction l generalizing st with
  | nil => exact h
  | cons a t ih =>
      rw [List.foldl_cons]
      exact ih _ (boneStep_added_mono st a h)

theorem foldl_progress {l : List TempBoneInfo} {st : SortState} {b0 : TempBoneInfo}
    (hb0 : b0 ∈ l) (hnot : ¬ st.added b0.originalIndex = true)
    (helig : b0.parentIndex = -1 ∨ st.added b0.parentIndex.toNat = true) :
    st.addedCount < (l.foldl boneStep st).addedCount := by
  induction l generalizing st with
  | nil => cases hb0
  | cons a t ih =>
      rw [List.foldl_cons]
      rcases List.mem_cons.mp hb0 with rfl | hmem
      · have hstep : (boneStep st b0).addedCount = st.addedCount + 1 := by
          rw [boneStep, if_neg hnot, if_pos helig]
        have := foldl_count_le t (boneStep st b0)
        omega
      · by_cases hch : (boneStep st a).added b0.originalIndex = true
        · have hstep := (boneStep_added_new hch hnot).1
          have := foldl_count_le t (boneStep st a)
          omega
        · have helig' : b0.parentIndex = -1 ∨
              (boneStep st a).added b0.parentIndex.toNat = true := by
            rcases helig with h | h
            · exact Or.inl h
            · exact Or.inr (boneStep_added_mono st a h)
          have h1 := ih hmem hch helig'
          have h2 := boneStep_count_le st a
          omega

theorem exists_eligible {bones : List TempBoneInfo} {st : SortState} (hwf : wfBones bones)
    (hacy : Acyclic bones) (hinv : SortInv bones st)
    (hlt : st.addedCount < bones.length) :
    ∃ b0 ∈ bones, ¬ st.added b0.originalIndex = true ∧
      (b0.parentIndex = -1 ∨ st.added b0.parentIndex.toNat = true) := by
  obtain ⟨rank, hrank⟩ := hacy
  have hexists : ∃ b ∈ bones, ¬ st.added b.originalIndex = true := by
    by_contra hall
    push_neg at hall
    have hsub : ∀ x ∈ bones.map (fun b => b.originalIndex),
        x ∈ st.sortedBones.map (fun b => b.originalIndex) := by
      intro x hx
      rw [List.mem_map] at hx
      obtain ⟨b, hb, rfl⟩ := hx
      rw [List.mem_map]
      exact ⟨b, (hinv.added_iff b hb).mp (hall b hb), rfl⟩
    have hle : bones.length ≤ st.sortedBones.length := by
      calc bones.length = (bones.map (fun b => b.originalIndex)).length :=
            (List.length_map _ _).symm
        _ = (bones.map (fun b => b.originalIndex)).toFinset.card :=
            (List.toFinset_card_of_nodup hwf.2.1).symm
        _ ≤ (st.sortedBones.map (fun b => b.originalIndex)).toFinset.card := by
            apply Finset.card_le_card
            intro x hx
            rw [List.mem_toFinset] at hx ⊢
            exact hsub x hx
        _ ≤ (st.sortedBones.map (fun b => b.originalIndex)).length :=
            List.toFinset_card_le _
        _ = st.sortedBones.length := List.length_map _ _
    rw [hinv.count_eq] at hlt
    omega
  set L := bones.filter (fun b => ! st.added b.originalIndex) with hL
  have hLne : L ≠ [] := by
    obtain ⟨b, hb, hnot⟩ := hexists
    intro hnil
    have : b ∈ L := by
      rw [hL, List.mem_filter]
      exact ⟨hb, by simp [hnot]⟩
    rw [hnil] at this
    cases this
  obtain ⟨m, hm⟩ : ∃ m, m ∈ L.argmin (fun b => rank b.originalIndex) := by
    rcases hargm : L.argmin (fun b => rank b.originalIndex) with _ | m
    · exact absurd (List.argmin_eq_none.mp hargm) hLne
    · exact ⟨m, by rw [hargm]; rfl⟩
  have hmL : m ∈ L := List.argmin_mem hm
  have hmbones : m ∈ bones := (List.mem_filter.mp hmL).1
  have hmnot : ¬ st.added m.originalIndex = true := by
    have hx := (List.mem_filter.mp hmL).2
    rw [Bool.not_eq_true'] at hx
    rw [hx]
    simp
  refine ⟨m, hmbones, hmnot, ?_⟩
  by_cases hmp : m.parentIndex = -1
  · exact Or.inl hmp
  · right
    by_contra hpnot
    obtain ⟨hp1, hp2⟩ := (hwf.2.2 m hmbones).resolve_left hmp
    obtain ⟨bp, hbp, hbpo⟩ := orig_surj hwf m.parentIndex.toNat hp2
    have hbpL : bp ∈ L := by
      rw [hL, List.mem_filter]
      refine ⟨hbp, ?_⟩
      rw [hbpo, Bool.not_eq_true']
      cases hadd2 : st.added m.parentIndex.toNat with
      | false => rfl
      | true => exact absurd hadd2 hpnot
    have hle := List.le_of_mem_argmin hbpL hm
    have hlt2 := hrank m hmbones hmp
    rw [hbpo] at hle
    omega

theorem runPass_progress {bones : List TempBoneInfo} {st : SortState} (hwf : wfBones bones)
    (hacy : Acyclic bones) (hinv : SortInv bones st)
    (hlt : st.addedCount < bones.length) :
    st.addedCount < (runPass bones st).addedCount := by
  obtain ⟨b0, hb0, hnot, helig⟩ := exists_eligible hwf hacy hinv hlt
  exact foldl_progress hb0 hnot helig

theorem sortPasses_complete {bones : List TempBoneInfo} (hwf : wfBones bones)
    (hacy : Acyclic bones) :
    ∀ (fuel : Nat) (st : SortState), SortInv bones st →
      bones.length ≤ fuel + st.addedCount →
      (sortPasses fuel bones st).addedCount = bones.length ∧
        SortInv bones (sortPasses fuel bones st) := by
  intro fuel
  induction fuel with
  | zero =>
      intro st hinv hle
      have := count_le_length hinv
      rw [sortPasses]
      exact ⟨by omega, hinv⟩
  | succ f ih =>
      intro st hinv hle
      rw [sortPasses]
      by_cases hlt : st.addedCount < bones.length
      · rw [if_pos hlt]
        have hprog := runPass_progress hwf hacy hinv hlt
        exact ih _ (runPass_inv hwf hinv) (by omega)
      · rw [if_neg hlt]
        have := count_le_length hinv
        exact ⟨by omega, hinv⟩

theorem sortSkeleton_spec {bones : List TempBoneInfo} (hwf : wfBones bones)
    (hacy : Acyclic bones) :
    (sortSkeleton bones).addedCount = bones.length ∧
      SortInv bones (sortSkeleton bones) :=
  sortPasses_complete hwf hacy bones.length initState (initState_inv bones) (by
    show bones.length ≤ bones.length + initState.addedCount
    omega)

theorem length_emitFrom (f : Nat → Int) :
    ∀ (i : Nat) (l : List TempBoneInfo), (emitFrom f i l).length = l.length := by
  intro i l
  induction l generalizing i with
  | nil => rfl
  | cons a t ih => simp [emitFrom, ih]

theorem mem_emitFrom (f : Nat → Int) :
    ∀ (l : List TempBoneInfo) (i : Nat) (ob : OutBone),
      ob ∈ emitFrom f i l ↔
        ∃ k, ∃ h : k < l.length, ob = emitBone f (i + k) (l.get ⟨k, h⟩) := by
  intro l
  induction l with
  | nil =>
      intro i ob
      constructor
      · intro h
        cases h
      · rintro ⟨k, h, _⟩
        exact absurd h (by simp)
  | cons a t ih =>
      intro i ob
      rw [emitFrom, List.mem_cons, ih (i + 1) ob]
      constructor
      · rintro (rfl | ⟨k, h, rfl⟩)
        · exact ⟨0, by simp, by simp⟩
        · refine ⟨k + 1, Nat.succ_lt_succ h, ?_⟩
          have hget : (a :: t).get ⟨k + 1, Nat.succ_lt_succ h⟩ = t.get ⟨k, h⟩ := rfl
          rw [hget, show i + (k + 1) = i + 1 + k from by omega]
      · rintro ⟨k, hk, rfl⟩
        cases k with
        | zero =>
            left
            simp
        | succ k' =>
            right
            refine ⟨k', by simpa using Nat.lt_of_succ_lt_succ hk, ?_⟩
            have hget : (a :: t).get ⟨k' + 1, hk⟩ =
                t.get ⟨k', Nat.lt_of_succ_lt_succ hk⟩ := rfl
            rw [hget, show i + (k' + 1) = i + 1 + k' from by omega]

theorem get_emitFrom (f : Nat → Int) :
    ∀ (l : List TempBoneInfo) (i k : Nat) (h2 : k < l.length)
      (h1 : k < (emitFrom f i l).length),
      (emitFrom f i l).get ⟨k, h1⟩ = emitBone f (i + k) (l.get ⟨k, h2⟩) := by
  intro l
  induction l with
  | nil =>
      intro i k h2 h1
      exact absurd h2 (by simp)
  | cons a t ih =>
      intro i k h2 h1
      cases k with
      | zero => simp [emitFrom]
      | succ k' =>
          have h2' : k' < t.length := Nat.lt_of_succ_lt_succ h2
          have h1' : k' < (emitFrom f (i + 1) t).length := by
            rw [length_emitFrom]
            exact h2'
          have hgl : (emitFrom f i (a :: t)).get ⟨k' + 1, h1⟩ =
              (emitFrom f (i + 1) t).get ⟨k', h1'⟩ := rfl
          have hgr : (a :: t).get ⟨k' + 1, h2⟩ = t.get ⟨k', h2'⟩ := rfl
          rw [hgl, hgr, ih (i + 1) k' h2' h1', show i + (k' + 1) = i + 1 + k' from by omega]

theorem map_id_emitFrom (f : Nat → Int) :
    ∀ (l : List TempBoneInfo) (i : Nat),
      (emitFrom f i l).map (fun ob => ob.id) = (List.range l.length).map (fun k => i + k) := by
  intro l
  induction l with
  | nil => intro i; rfl
  | cons a t ih =>
      intro i
      rw [emitFrom, List.map_cons, ih (i + 1)]
      rw [show (a :: t).length = t.length + 1 from rfl, List.range_succ_eq_map]
      rw [List.map_cons, List.map_map]
      refine congrArg₂ _ (by simp [emitBone]) ?_
      apply List.map_congr_left
      intro k _
      show i + 1 + k = i + (k + 1)
      omega

/-- C1: for every well-formed acyclic bone set, every bone in the skeleton
list emitted by `processSkeleton` that has a parent satisfies
`parentFinalId < finalId`: after the pass-based placement and the
`newIndices` remap, the remapped parent index is nonnegative and strictly
smaller than the bone's own position in the sorted output. -/
theorem parent_precedes_child (bones : List TempBoneInfo) (hwf : wfBones bones)
    (hacy : Acyclic bones) :
    ∀ ob ∈ processSkeleton bones, ob.parentId ≠ -1 →
      0 ≤ ob.parentId ∧ ob.parentId < (ob.id : Int) := by
  obtain ⟨hcount, hinv⟩ := sortSkeleton_spec hwf hacy
  intro ob hob hne
  rw [processSkeleton, mem_emitFrom] at hob
  obtain ⟨k, hk, rfl⟩ := hob
  simp only [emitBone] at hne ⊢
  by_cases hp : ((sortSkeleton bones).sortedBones.get ⟨k, hk⟩).parentIndex = -1
  · exfalso
    apply hne
    rw [if_neg (by simpa using hp)]
    exact hp
  · obtain ⟨hadd, hlt⟩ := hinv.parent_lt k hk hp
    obtain ⟨hge, _⟩ := hinv.newIndex_lt _ hadd
    rw [if_pos hp]
    refine ⟨hge, ?_⟩
    have hcast : ((0 + k : Nat) : Int) = (k : Int) := by
      push_cast
      omega
    rw [hcast]
    exact hlt

/-- C6: for every well-formed acyclic bone set of `N` registered bones, the
final ids assigned by `processSkeleton` are exactly `0, …, N-1` in output
order: dense, 0-based, each one the bone's position in the sorted list. -/
theorem finalIds_exactly_range (bones : List TempBoneInfo) (hwf : wfBones bones)
    (hacy : Acyclic bones) :
    (processSkeleton bones).map (fun ob => ob.id) = List.range bones.length := by
  obtain ⟨hcount, hinv⟩ := sortSkeleton_spec hwf hacy
  have hlen : (sortSkeleton bones).sortedBones.length = bones.length := by
    rw [← hinv.count_eq]
    exact hcount
  rw [processSkeleton, map_id_emitFrom, hlen]
  simp

/-- C8: every bone emitted by `processSkeleton` has the offset matrix of a
registered bone with only the first three entries of the translation
column multiplied by the global scale factor; the other thirteen entries
are emitted unchanged. -/
theorem offset_translation_scaled (bones : List TempBoneInfo) (hwf : wfBones bones)
    (ob : OutBone) (hob : ob ∈ processSkeleton bones) :
    ∃ b ∈ bones, ob.name = b.name ∧
      ob.offset.a4 = b.offsetMatrix.a4 * gScaleFactor ∧
      ob.offset.b4 = b.offsetMatrix.b4 * gScaleFactor ∧
      ob.offset.c4 = b.offsetMatrix.c4 * gScaleFactor ∧
      ob.offset.a1 = b.offsetMatrix.a1 ∧ ob.offset.a2 = b.offsetMatrix.a2 ∧
      ob.offset.a3 = b.offsetMatrix.a3 ∧ ob.offset.b1 = b.offsetMatrix.b1 ∧
      ob.offset.b2 = b.offsetMatrix.b2 ∧ ob.offset.b3 = b.offsetMatrix.b3 ∧
      ob.offset.c1 = b.offsetMatrix.c1 ∧ ob.offset.c2 = b.offsetMatrix.c2 ∧
      ob.offset.c3 = b.offsetMatrix.c3 ∧ ob.offset.d1 = b.offsetMatrix.d1 ∧
      ob.offset.d2 = b.offsetMatrix.d2 ∧ ob.offset.d3 = b.offsetMatrix.d3 ∧
      ob.offset.d4 = b.offsetMatrix.d4 := by
  have hinv : SortInv bones (sortSkeleton bones) :=
    sortPasses_inv hwf bones.length (initState_inv bones)
  rw [processSkeleton, mem_emitFrom] at hob
  obtain ⟨k, hk, rfl⟩ := hob
  refine ⟨(sortSkeleton bones).sortedBones.get ⟨k, hk⟩,
    hinv.sorted_sub _ (List.get_mem _ k hk), ?_⟩
  simp [emitBone, scaleTranslation]

/-- Well-formedness of the bone table: ids are distinct and below the
table size (they are allocated `0, 1, 2, …` by the registration loop in
`main`, src/main.cpp:115-125). -/
def wfBoneMap (boneMap : List (String × Nat)) : Prop :=
  (∀ p ∈ boneMap, p.2 < boneMap.length) ∧ (boneMap.map Prod.snd).Nodup

theorem wf_buildUnsorted (boneMap : List (String × Nat))
    (nodeParent : String → Option String) (offsetOf : String → Option Mat4)
    (hwf : wfBoneMap boneMap) : wfBones (buildUnsorted boneMap nodeParent offsetOf) := by
  have hlen : (buildUnsorted boneMap nodeParent offsetOf).length = boneMap.length :=
    List.length_map _ _
  refine ⟨?_, ?_, ?_⟩
  · intro b hb
    rw [buildUnsorted, List.mem_map] at hb
    obtain ⟨p, hp, rfl⟩ := hb
    rw [hlen]
    exact hwf.1 p hp
  · rw [buildUnsorted, List.map_map]
    exact hwf.2
  · intro b hb
    rw [buildUnsorted, List.mem_map] at hb
    obtain ⟨p, hp, rfl⟩ := hb
    rcases hnp : nodeParent p.1 with _ | pname
    · left
      simp only [resolveBone, hnp]
    · rcases hfind : boneMap.find? (fun q => q.1 = pname) with _ | q
      · left
        simp only [resolveBone, hnp, hfind, Option.map_none']
      · right
        have hq : q ∈ boneMap := List.mem_of_find?_eq_some hfind
        constructor
        · simp only [resolveBone, hnp, hfind, Option.map_some']
          exact Int.ofNat_nonneg q.2
        · simp only [resolveBone, hnp, hfind, Option.map_some', Int.toNat_ofNat]
          rw [hlen]
          exact hwf.1 q hq

theorem sortedBones_perm {bones : List TempBoneInfo} (hwf : wfBones bones)
    (hacy : Acyclic bones) : (sortSkeleton bones).sortedBones.Perm bones := by
  obtain ⟨hcount, hinv⟩ := sortSkeleton_spec hwf hacy
  have hlen : (sortSkeleton bones).sortedBones.length = bones.length := by
    rw [← hinv.count_eq]
    exact hcount
  have hnodup_s : (sortSkeleton bones).sortedBones.Nodup :=
    List.Nodup.of_map _ hinv.sorted_nodup
  have hnodup_b : bones.Nodup := List.Nodup.of_map _ hwf.2.1
  rw [List.perm_ext_iff_of_nodup hnodup_s hnodup_b]
  intro b
  constructor
  · exact fun h => hinv.sorted_sub b h
  · intro hb
    have hsub : ((sortSkeleton bones).sortedBones.map (fun b => b.originalIndex)).toFinset ⊆
        (bones.map (fun b => b.originalIndex)).toFinset := by
      intro x hx
      rw [List.mem_toFinset, List.mem_map] at hx
      obtain ⟨c, hc, rfl⟩ := hx
      rw [List.mem_toFinset, List.mem_map]
      exact ⟨c, hinv.sorted_sub c hc, rfl⟩
    have hcard : (bones.map (fun b => b.originalIndex)).toFinset.card ≤
        ((sortSkeleton bones).sortedBones.map (fun b => b.originalIndex)).toFinset.card := by
      rw [List.toFinset_card_of_nodup hinv.sorted_nodup,
        List.toFinset_card_of_nodup hwf.2.1, List.length_map, List.length_map, hlen]
    have heq := Finset.eq_of_subset_of_card_le hsub hcard
    have hmem : b.originalIndex ∈
        ((sortSkeleton bones).sortedBones.map (fun b => b.originalIndex)).toFinset := by
      rw [heq, List.mem_toFinset, List.mem_map]
      exact ⟨b, hb, rfl⟩
    rw [List.mem_toFinset, List.mem_map] at hmem
    obtain ⟨c, hc, hco⟩ := hmem
    have : c = b := orig_inj hwf c (hinv.sorted_sub c hc) b hb hco
    rw [← this]
    exact hc

theorem map_emitFrom (f : Nat → Int) :
    ∀ (l : List TempBoneInfo) (i : Nat),
      (emitFrom f i l).map (fun ob => (ob.name, ob.offset)) =
        l.map (fun b => (b.name, scaleTranslation b.offsetMatrix)) := by
  intro l
  induction l with
  | nil => intro i; rfl
  | cons a t ih =>
      intro i
      rw [emitFrom, List.map_cons, List.map_cons, ih (i + 1)]
      rfl

/-- C10: for every well-formed bone table and acyclic resolved bone set,
the skeleton emitted by `processSkeleton` is a permutation of the
registered bones: each registered name appears exactly as often as in the
table, paired with its resolved offset matrix (translation-scaled) — no
bone is dropped, duplicated, or renamed by the sort and remap. -/
theorem skeleton_preserves_registered_bones (boneMap : List (String × Nat))
    (nodeParent : String → Option String) (offsetOf : String → Option Mat4)
    (hwf : wfBoneMap boneMap) (hacy : Acyclic (buildUnsorted boneMap nodeParent offsetOf)) :
    ((processSkeleton (buildUnsorted boneMap nodeParent offsetOf)).map
        (fun ob => (ob.name, ob.offset))).Perm
      (boneMap.map (fun p => (p.1, scaleTranslation ((offsetOf p.1).getD idMat4)))) := by
  have hwfb := wf_buildUnsorted boneMap nodeParent offsetOf hwf
  have hperm := sortedBones_perm hwfb hacy
  rw [processSkeleton, map_emitFrom]
  refine (hperm.map (fun b => (b.name, scaleTranslation b.offsetMatrix))).trans ?_
  rw [buildUnsorted, List.map_map]
  exact List.Perm.refl _

/-- The cyclic two-bone configuration: A's parent is B, B's parent is A. -/
def cyclicBones : List TempBoneInfo :=
  [{ name := "A", originalIndex := 0, parentIndex := 1, offsetMatrix := idMat4 },
    { name := "B", originalIndex := 1, parentIndex := 0, offsetMatrix := idMat4 }]

/-- C2 (divergence witness): on the cyclic configuration every pass of the
placement loop places nothing — the state is a fixed point — so the
`while (addedCount < unsortedBones.size())` guard remains true after any
number of passes: the loop in `processSkeleton` never terminates.  The
C++ code contains no stall detection and no error report for this case. -/
theorem cyclic_bones_loop_never_exits (fuel : Nat) :
    sortPasses fuel cyclicBones initState = initState ∧
      (sortPasses fuel cyclicBones initState).addedCount < cyclicBones.length ∧
      runPass cyclicBones initState = initState := by
  have hpass : runPass cyclicBones initState = initState := rfl
  induction fuel with
  | zero => exact ⟨rfl, by decide, hpass⟩
  | succ f ih =>
      have hstep : sortPasses (f + 1) cyclicBones initState =
          sortPasses f cyclicBones initState := by
        rw [sortPasses, if_pos (by decide), hpass]
      rw [hstep]
      exact ih

theorem boneStep_sorted_extend (st : SortState) (bone : TempBoneInfo) :
    ∃ t, (boneStep st bone).sortedBones = st.sortedBones ++ t := by
  rw [boneStep]
  split_ifs
  · exact ⟨[], by simp⟩
  · exact ⟨[bone], rfl⟩
  · exact ⟨[], by simp⟩

theorem foldl_sorted_extend (l : List TempBoneInfo) (st : SortState) :
    ∃ t, (l.foldl boneStep st).sortedBones = st.sortedBones ++ t := by
  induction l generalizing st with
  | nil => exact ⟨[], by simp⟩
  | cons a u ih =>
      rw [List.foldl_cons]
      obtain ⟨t1, ht1⟩ := boneStep_sorted_extend st a
      obtain ⟨t2, ht2⟩ := ih (boneStep st a)
      exact ⟨t1 ++ t2, by rw [ht2, ht1, List.append_assoc]⟩

theorem sortPasses_sorted_extend (fuel : Nat) (bones : List TempBoneInfo) :
    ∀ (st : SortState), ∃ t, (sortPasses fuel bones st).sortedBones = st.sortedBones ++ t := by
  induction fuel with
  | zero => exact fun st => ⟨[], by simp [sortPasses]⟩
  | succ f ih =>
      intro st
      rw [sortPasses]
      by_cases hlt : st.addedCount < bones.length
      · rw [if_pos hlt]
        obtain ⟨t2, ht2⟩ := ih (runPass bones st)
        obtain ⟨t1, ht1⟩ := foldl_sorted_extend bones st
        refine ⟨t1 ++ t2, ?_⟩
        rw [ht2, show (runPass bones st).sortedBones = st.sortedBones ++ t1 from ht1,
          List.append_assoc]
      · rw [if_neg hlt]
        exact ⟨[], by simp⟩

theorem foldl_added_from (l : List TempBoneInfo) :
    ∀ (st : SortState) (j : Nat), (l.foldl boneStep st).added j = true →
      st.added j = true ∨ ∃ b ∈ l, b.originalIndex = j := by
  induction l with
  | nil => exact fun st j h => Or.inl h
  | cons a t ih =>
      intro st j h
      rw [List.foldl_cons] at h
      rcases ih (boneStep st a) j h with h2 | h2
      · by_cases hcase : st.added j = true
        · exact Or.inl hcase
        · obtain ⟨-, -, hj⟩ := boneStep_added_new h2 hcase
          exact Or.inr ⟨a, List.mem_cons_self a t, hj.symm⟩
      · obtain ⟨b, hb, hbj⟩ := h2
        exact Or.inr ⟨b, List.mem_cons_of_mem _ hb, hbj⟩

theorem boneStep_added_other {st : SortState} {bone : TempBoneInfo} {j : Nat}
    (hjo : j ≠ bone.originalIndex) (h : ¬ st.added j = true) :
    ¬ (boneStep st bone).added j = true := by
  intro hc
  obtain ⟨-, -, hj⟩ := boneStep_added_new hc h
  exact hjo hj

theorem foldl_places_eligible (b0 : TempBoneInfo) :
    ∀ (l : List TempBoneInfo) (st : SortState), b0 ∈ l →
      (b0.parentIndex = -1 ∨ st.added b0.parentIndex.toNat = true) →
      ¬ st.added b0.originalIndex = true →
      (∀ a ∈ l, a.originalIndex = b0.originalIndex → a = b0) →
      ∃ t, (l.foldl boneStep st).sortedBones = st.sortedBones ++ t ∧ b0 ∈ t := by
  intro l
  induction l with
  | nil =>
      intro st hmem
      cases hmem
  | cons a u ih =>
      intro st hmem helig hnot hinj
      rw [List.foldl_cons]
      by_cases hch : (boneStep st a).added b0.originalIndex = true
      · obtain ⟨hcnt, hsorted, hjo⟩ := boneStep_added_new hch hnot
        have ha : a = b0 := hinj a (List.mem_cons_self a u) hjo.symm
        obtain ⟨t2, ht2⟩ := foldl_sorted_extend u (boneStep st a)
        refine ⟨a :: t2, ?_, ?_⟩
        · rw [ht2, hsorted]
          simp
        · rw [ha]
          exact List.mem_cons_self _ _
      · have hb0u : b0 ∈ u := by
          rcases List.mem_cons.mp hmem with rfl | hu
          · exfalso
            apply hch
            rw [boneStep, if_neg hnot, if_pos helig]
            show (if b0.originalIndex = b0.originalIndex then true
                else st.added b0.originalIndex) = true
            rw [if_pos rfl]
          · exact hu
        have helig2 : b0.parentIndex = -1 ∨
            (boneStep st a).added b0.parentIndex.toNat = true := by
          rcases helig with h | h
          · exact Or.inl h
          · exact Or.inr (boneStep_added_mono st a h)
        obtain ⟨t, ht, hb0t⟩ := ih (boneStep st a) hb0u helig2 hch
          (fun x hx => hinj x (List.mem_cons_of_mem _ hx))
        obtain ⟨t1, ht1⟩ := boneStep_sorted_extend st a
        exact ⟨t1 ++ t, by rw [ht, ht1, List.append_assoc],
          List.mem_append.mpr (Or.inr hb0t)⟩

theorem roots_scan_order_core (bones : List TempBoneInfo) (hwf : wfBones bones)
    (i j : Nat) (hi : i < bones.length) (hj : j < bones.length) (hij : i < j)
    (hri : (bones.get ⟨i, hi⟩).parentIndex = -1)
    (hrj : (bones.get ⟨j, hj⟩).parentIndex = -1) :
    ∃ P W, (sortSkeleton bones).sortedBones = P ++ bones.get ⟨i, hi⟩ :: W ∧
      bones.get ⟨j, hj⟩ ∈ W := by
  have hnodup : bones.Nodup := List.Nodup.of_map _ hwf.2.1
  have hmem_i : bones.get ⟨i, hi⟩ ∈ bones := List.get_mem bones i hi
  have hmem_j : bones.get ⟨j, hj⟩ ∈ bones := List.get_mem bones j hj
  have hne_pos : bones.get ⟨i, hi⟩ ≠ bones.get ⟨j, hj⟩ := by
    intro heq
    have := (hnodup.get_inj_iff).mp heq
    rw [Fin.mk.injEq] at this
    omega
  have horig_ne : (bones.get ⟨j, hj⟩).originalIndex ≠ (bones.get ⟨i, hi⟩).originalIndex := by
    intro heq
    exact hne_pos (orig_inj hwf _ hmem_j _ hmem_i heq).symm
  have hnot_take : ∀ (k : Nat) (hk : k < bones.length), ¬ bones.get ⟨k, hk⟩ ∈ bones.take i →
      True := fun _ _ _ => trivial
  have hnotin_take : ∀ (k : Nat) (hk : k < bones.length), i ≤ k →
      bones.get ⟨k, hk⟩ ∉ bones.take i := by
    intro k hk hik hmem
    rw [List.mem_iff_getElem] at hmem
    obtain ⟨m, hm, hmeq⟩ := hmem
    have hm2 : m < i := by
      have := hm
      rw [List.length_take] at this
      omega
    have hmb : m < bones.length := by omega
    have hbm : bones.get ⟨m, hmb⟩ = bones.get ⟨k, hk⟩ := by
      rw [← hmeq, List.get_eq_getElem]
      exact (List.getElem_take bones).symm
    have := (hnodup.get_inj_iff).mp hbm
    rw [Fin.mk.injEq] at this
    omega
  have hunadded : ∀ (k : Nat) (hk : k < bones.length), i ≤ k →
      ¬ ((bones.take i).foldl boneStep initState).added
        (bones.get ⟨k, hk⟩).originalIndex = true := by
    intro k hk hik hadd
    rcases foldl_added_from (bones.take i) initState _ hadd with h | h
    · exact absurd h (by simp [initState])
    · obtain ⟨b, hb, hbo⟩ := h
      have hbb : b ∈ bones := List.mem_of_mem_take hb
      have : b = bones.get ⟨k, hk⟩ := orig_inj hwf b hbb _ (List.get_mem bones k hk) hbo
      rw [this] at hb
      exact hnotin_take k hk hik hb
  set stA := (bones.take i).foldl boneStep initState with hstA
  have hunadded_i : ¬ stA.added (bones.get ⟨i, hi⟩).originalIndex = true :=
    hunadded i hi (le_refl i)
  have hunadded_j : ¬ stA.added (bones.get ⟨j, hj⟩).originalIndex = true :=
    hunadded j hj (by omega)
  have hplace : (boneStep stA (bones.get ⟨i, hi⟩)).sortedBones =
      stA.sortedBones ++ [bones.get ⟨i, hi⟩] := by
    rw [boneStep, if_neg hunadded_i, if_pos (Or.inl hri)]
  have hunadded_j2 : ¬ (boneStep stA (bones.get ⟨i, hi⟩)).added
      (bones.get ⟨j, hj⟩).originalIndex = true :=
    boneStep_added_other horig_ne hunadded_j
  have hmem_j_drop : bones.get ⟨j, hj⟩ ∈ bones.drop (i + 1) := by
    rw [List.mem_iff_getElem]
    refine ⟨j - (i + 1), ?_, ?_⟩
    · rw [List.length_drop]
      omega
    · rw [List.getElem_drop, List.get_eq_getElem]
      congr 1
      omega
  obtain ⟨t, ht, hjt⟩ := foldl_places_eligible (bones.get ⟨j, hj⟩) (bones.drop (i + 1))
    (boneStep stA (bones.get ⟨i, hi⟩)) hmem_j_drop (Or.inl hrj) hunadded_j2
    (fun x hx hxo => orig_inj hwf x (List.mem_of_mem_drop hx) _ (List.get_mem bones j hj) hxo)
  have hsplit : bones = bones.take i ++ bones.get ⟨i, hi⟩ :: bones.drop (i + 1) := by
    conv_lhs => rw [← List.take_append_drop i bones]
    rw [List.drop_eq_getElem_cons hi, List.get_eq_getElem]
  have hrun : (runPass bones initState).sortedBones =
      stA.sortedBones ++ bones.get ⟨i, hi⟩ :: t := by
    rw [runPass]
    conv_lhs => rw [hsplit]
    rw [List.foldl_append, List.foldl_cons, ← hstA, ht, hplace, List.append_assoc]
    rfl
  obtain ⟨f, hf⟩ : ∃ f, bones.length = f + 1 := ⟨bones.length - 1, by omega⟩
  have hguard : initState.addedCount < bones.length := by
    have h0 : initState.addedCount = 0 := rfl
    omega
  obtain ⟨u, hu⟩ := sortPasses_sorted_extend f bones (runPass bones initState)
  refine ⟨stA.sortedBones, t ++ u, ?_, List.mem_append.mpr (Or.inl hjt)⟩
  have hfinal : (sortPasses bones.length bones initState).sortedBones =
      (runPass bones initState).sortedBones ++ u := by
    rw [hf, sortPasses, if_pos hguard]
    exact hu
  rw [sortSkeleton, hfinal, hrun, List.append_assoc]
  rfl

theorem emitFrom_append (f : Nat → Int) :
    ∀ (l1 l2 : List TempBoneInfo) (i : Nat),
      emitFrom f i (l1 ++ l2) = emitFrom f i l1 ++ emitFrom f (i + l1.length) l2 := by
  intro l1
  induction l1 with
  | nil =>
      intro l2 i
      simp [emitFrom]
  | cons a t ih =>
      intro l2 i
      rw [List.cons_append, emitFrom, emitFrom, ih l2 (i + 1), List.cons_append]
      have : i + 1 + t.length = i + (a :: t).length := by
        simp
        omega
      rw [this]

/-- C5 (amended): ties among simultaneously eligible bones are broken by
the scan order of the unsorted bone list (the bone table's iteration
order, which is ascending bone-name order), not by ascending original
id: of two root bones, the one earlier in the list is placed earlier and
receives the smaller final id. -/
theorem eligible_ties_broken_by_scan_order (bones : List TempBoneInfo) (hwf : wfBones bones)
    (i j : Nat) (hi : i < bones.length) (hj : j < bones.length) (hij : i < j)
    (hri : (bones.get ⟨i, hi⟩).parentIndex = -1)
    (hrj : (bones.get ⟨j, hj⟩).parentIndex = -1) :
    ∃ out1 out2 out3 obi obj,
      processSkeleton bones = out1 ++ obi :: (out2 ++ obj :: out3) ∧
      obi.name = (bones.get ⟨i, hi⟩).name ∧ obj.name = (bones.get ⟨j, hj⟩).name ∧
      obi.id < obj.id := by
  obtain ⟨P, W, hPW, hjW⟩ := roots_scan_order_core bones hwf i j hi hj hij hri hrj
  obtain ⟨W1, W2, hW⟩ : ∃ W1 W2, W = W1 ++ bones.get ⟨j, hj⟩ :: W2 := by
    obtain ⟨W1, W2, h⟩ := List.append_of_mem hjW
    exact ⟨W1, W2, h⟩
  subst hW
  rw [processSkeleton, hPW]
  set f := (sortSkeleton bones).newIndex
  rw [emitFrom_append, emitFrom]
  rw [emitFrom_append, emitFrom]
  refine ⟨emitFrom f 0 P, emitFrom f (0 + P.length + 1) W1, _, _, _, rfl, rfl, rfl, ?_⟩
  show 0 + P.length < 0 + P.length + 1 + W1.length
  omega

/-- C5 counterexample: the claim "simultaneously eligible bones are placed
in ascending original-ID order" is false.  With the bone table
`{a ↦ 1, b ↦ 0}` (name order `a, b`, discovery order `b, a`), both bones
roots, the output places `a` (original id 1) before `b` (original id 0). -/
theorem scan_order_claim_counterexample :
    ¬ (∀ (bones : List TempBoneInfo), wfBones bones → Acyclic bones →
        ∀ b1 ∈ bones, ∀ b2 ∈ bones, b1.parentIndex = -1 → b2.parentIndex = -1 →
          b1.originalIndex < b2.originalIndex →
          ∃ out1 out2 out3 ob1 ob2,
            processSkeleton bones = out1 ++ ob1 :: (out2 ++ ob2 :: out3) ∧
            ob1.name = b1.name ∧ ob2.name = b2.name ∧ ob1.id < ob2.id) := by
  intro hclaim
  obtain ⟨out1, out2, out3, ob1, ob2, heq, hn1, hn2, hid⟩ :=
    hclaim [⟨"a", 1, -1, idMat4⟩, ⟨"b", 0, -1, idMat4⟩] ⟨by decide, by decide, by decide⟩
      ⟨fun k => k, by decide⟩
      ⟨"b", 0, -1, idMat4⟩ (List.mem_cons_of_mem _ (List.mem_cons_self _ _))
      ⟨"a", 1, -1, idMat4⟩ (List.mem_cons_self _ _)
      rfl rfl (by decide)
  have hout : processSkeleton [⟨"a", 1, -1, idMat4⟩, ⟨"b", 0, -1, idMat4⟩] =
      [⟨0, "a", -1, scaleTranslation idMat4⟩, ⟨1, "b", -1, scaleTranslation idMat4⟩] := rfl
  rw [hout] at heq
  have hlen := congrArg List.length heq
  simp only [List.length_append, List.length_cons, List.length_nil] at hlen
  have h1 : out1.length = 0 := by omega
  have h2 : out2.length = 0 := by omega
  have h3 : out3.length = 0 := by omega
  rw [List.length_eq_zero.mp h1, List.length_eq_zero.mp h2, List.length_eq_zero.mp h3] at heq
  simp only [List.nil_append, List.append_nil] at heq
  rw [List.cons.injEq, List.cons.injEq] at heq
  obtain ⟨hob1, hob2, -⟩ := heq
  rw [← hob1] at hn1
  simp only [] at hn1
  exact absurd hn1 (by decide)

/-- A full vertex (no empty bone slot) used to exercise the eviction path. -/
def vFull : Vertex :=
  { position := [0, 0, 0], texcoord := [0, 0], normal := [0, 0, 0], tangent := [0, 0, 0],
    boneIDs := [1, 2, 3, 4], weights := [5, 6, 7, 8] }

theorem addBoneWeight_topFour_witness :
    (∀ b ∈ vFull.boneIDs, -1 ≤ b) ∧
    (((∃ k < 4, vFull.boneIDs.getD k 0 = -1) →
        ∃ i < 4, vFull.boneIDs.getD i 0 = -1 ∧ (∀ k < i, vFull.boneIDs.getD k 0 ≠ -1) ∧
          addBoneWeight vFull 9 5 =
            { vFull with boneIDs := vFull.boneIDs.set i 9, weights := vFull.weights.set i 5 }) ∧
      ((∀ k < 4, vFull.boneIDs.getD k 0 ≠ -1) →
        ∃ m < 4, (∀ k < 4, vFull.weights.getD m 0 ≤ vFull.weights.getD k 0) ∧
          (vFull.weights.getD m 0 < 5 →
            addBoneWeight vFull 9 5 =
              { vFull with boneIDs := vFull.boneIDs.set m 9, weights := vFull.weights.set m 5 }) ∧
          (¬ vFull.weights.getD m 0 < 5 → addBoneWeight vFull 9 5 = vFull))) :=
  ⟨by decide, addBoneWeight_topFour.2 vFull 9 5 (by decide)⟩

theorem packMesh_deterministic_witness :
    ([freshVertex] : List Vertex).length < 2 ^ 32 ∧
    ([2, 0, 1] : List Nat).length < 2 ^ 32 ∧
    (packMesh [freshVertex] [2, 0, 1] 7 = packMesh [freshVertex] [2, 0, 1] 7 ∧
      packMesh [freshVertex] [2, 0, 1] 7 =
        headerWords ([freshVertex] : List Vertex).length ([2, 0, 1] : List Nat).length 7 ++
          ((([freshVertex] : List Vertex).map vertexWords).flatten ++
            ([2, 0, 1] : List Nat).map PackWord.u32) ∧
      unpackHeader (packMesh [freshVertex] [2, 0, 1] 7) =
        some (([freshVertex] : List Vertex).length, ([2, 0, 1] : List Nat).length, 7)) :=
  ⟨by decide, by decide,
    packMesh_deterministic [freshVertex] [freshVertex] [2, 0, 1] [2, 0, 1] 7 7
      (by decide) (by decide) rfl rfl rfl⟩

theorem meshBones_indexing_in_bounds_witness :
    (∀ b ∈ ([("A", [(0, (1 : ℚ))])] : List (String × List (Nat × ℚ))), ∀ r ∈ b.2,
      r.1 < ([freshVertex] : List Vertex).length) ∧
    ∃ vs, applyMeshBones (fun n => if n = "A" then some 0 else none) [freshVertex]
        [("A", [(0, (1 : ℚ))])] = some vs ∧ vs.length = ([freshVertex] : List Vertex).length :=
  ⟨by decide,
    meshBones_indexing_in_bounds (fun n => if n = "A" then some 0 else none)
      [("A", [(0, (1 : ℚ))])] [freshVertex] (by decide)⟩

/-- A two-bone chain: B's parent is A, A is a root. -/
def chainBones : List TempBoneInfo :=
  [{ name := "A", originalIndex := 0, parentIndex := -1, offsetMatrix := idMat4 },
    { name := "B", originalIndex := 1, parentIndex := 0, offsetMatrix := idMat4 }]

theorem parent_precedes_child_witness :
    wfBones chainBones ∧ Acyclic chainBones ∧
    ∀ ob ∈ processSkeleton chainBones, ob.parentId ≠ -1 →
      0 ≤ ob.parentId ∧ ob.parentId < (ob.id : Int) :=
  ⟨⟨by decide, by decide, by decide⟩, ⟨fun k => k, by decide⟩,
    parent_precedes_child chainBones ⟨by decide, by decide, by decide⟩
      ⟨fun k => k, by decide⟩⟩

theorem finalIds_exactly_range_witness :
    wfBones chainBones ∧ Acyclic chainBones ∧
    (processSkeleton chainBones).map (fun ob => ob.id) = List.range chainBones.length :=
  ⟨⟨by decide, by decide, by decide⟩, ⟨fun k => k, by decide⟩,
    finalIds_exactly_range chainBones ⟨by decide, by decide, by decide⟩
      ⟨fun k => k, by decide⟩⟩

/-- A one-bone table used to exercise the emission path. -/
def singleRootBones : List TempBoneInfo :=
  [{ name := "A", originalIndex := 0, parentIndex := -1, offsetMatrix := idMat4 }]

theorem offset_translation_scaled_witness :
    wfBones singleRootBones ∧
    (⟨0, "A", -1, scaleTranslation idMat4⟩ : OutBone) ∈ processSkeleton singleRootBones ∧
    ∃ b ∈ singleRootBones,
      (⟨0, "A", -1, scaleTranslation idMat4⟩ : OutBone).name = b.name ∧
      (⟨0, "A", -1, scaleTranslation idMat4⟩ : OutBone).offset.a4 =
        b.offsetMatrix.a4 * gScaleFactor ∧
      (⟨0, "A", -1, scaleTranslation idMat4⟩ : OutBone).offset.b4 =
        b.offsetMatrix.b4 * gScaleFactor ∧
      (⟨0, "A", -1, scaleTranslation idMat4⟩ : OutBone).offset.c4 =
        b.offsetMatrix.c4 * gScaleFactor ∧
      (⟨0, "A", -1, scaleTranslation idMat4⟩ : OutBone).offset.a1 = b.offsetMatrix.a1 ∧
      (⟨0, "A", -1, scaleTranslation idMat4⟩ : OutBone).offset.a2 = b.offsetMatrix.a2 ∧
      (⟨0, "A", -1, scaleTranslation idMat4⟩ : OutBone).offset.a3 = b.offsetMatrix.a3 ∧
      (⟨0, "A", -1, scaleTranslation idMat4⟩ : OutBone).offset.b1 = b.offsetMatrix.b1 ∧
      (⟨0, "A", -1, scaleTranslation idMat4⟩ : OutBone).offset.b2 = b.offsetMatrix.b2 ∧
      (⟨0, "A", -1, scaleTranslation idMat4⟩ : OutBone).offset.b3 = b.offsetMatrix.b3 ∧
      (⟨0, "A", -1, scaleTranslation idMat4⟩ : OutBone).offset.c1 = b.offsetMatrix.c1 ∧
      (⟨0, "A", -1, scaleTranslation idMat4⟩ : OutBone).offset.c2 = b.offsetMatrix.c2 ∧
      (⟨0, "A", -1, scaleTranslation idMat4⟩ : OutBone).offset.c3 = b.offsetMatrix.c3 ∧
      (⟨0, "A", -1, scaleTranslation idMat4⟩ : OutBone).offset.d1 = b.offsetMatrix.d1 ∧
      (⟨0, "A", -1, scaleTranslation idMat4⟩ : OutBone).offset.d2 = b.offsetMatrix.d2 ∧
      (⟨0, "A", -1, scaleTranslation idMat4⟩ : OutBone).offset.d3 = b.offsetMatrix.d3 ∧
      (⟨0, "A", -1, scaleTranslation idMat4⟩ : OutBone).offset.d4 = b.offsetMatrix.d4 :=
  ⟨⟨by decide, by decide, by decide⟩,
    by
      rw [show processSkeleton singleRootBones =
        [⟨0, "A", -1, scaleTranslation idMat4⟩] from rfl]
      exact List.mem_cons_self _ _,
    offset_translation_scaled singleRootBones ⟨by decide, by decide, by decide⟩
      ⟨0, "A", -1, scaleTranslation idMat4⟩
      (by
        rw [show processSkeleton singleRootBones =
          [⟨0, "A", -1, scaleTranslation idMat4⟩] from rfl]
        exact List.mem_cons_self _ _)⟩

/-- The bone table whose name order differs from its id (discovery) order. -/
def twoRootBones : List TempBoneInfo :=
  [{ name := "a", originalIndex := 1, parentIndex := -1, offsetMatrix := idMat4 },
    { name := "b", originalIndex := 0, parentIndex := -1, offsetMatrix := idMat4 }]

theorem eligible_ties_broken_by_scan_order_witness :
    wfBones twoRootBones ∧ 0 < twoRootBones.length ∧ 1 < twoRootBones.length ∧
    (0 : Nat) < 1 ∧
    (twoRootBones.get ⟨0, by decide⟩).parentIndex = -1 ∧
    (twoRootBones.get ⟨1, by decide⟩).parentIndex = -1 ∧
    ∃ out1 out2 out3 obi obj,
      processSkeleton twoRootBones = out1 ++ obi :: (out2 ++ obj :: out3) ∧
      obi.name = (twoRootBones.get ⟨0, by decide⟩).name ∧
      obj.name = (twoRootBones.get ⟨1, by decide⟩).name ∧ obi.id < obj.id :=
  ⟨⟨by decide, by decide, by decide⟩, by decide, by decide, by decide, by decide, by decide,
    eligible_ties_broken_by_scan_order twoRootBones ⟨by decide, by decide, by decide⟩
      0 1 (by decide) (by decide) (by decide) (by decide) (by decide)⟩

/-- A trivial node hierarchy: no node has a parent. -/
def noParent : String → Option String := fun _ => none

/-- A trivial offset lookup: no mesh defines any offset. -/
def noOffset : String → Option Mat4 := fun _ => none

theorem skeleton_preserves_registered_bones_witness :
    wfBoneMap [("A", 0)] ∧ Acyclic (buildUnsorted [("A", 0)] noParent noOffset) ∧
    ((processSkeleton (buildUnsorted [("A", 0)] noParent noOffset)).map
        (fun ob => (ob.name, ob.offset))).Perm
      (([("A", 0)] : List (String × Nat)).map
        (fun p => (p.1, scaleTranslation ((noOffset p.1).getD idMat4)))) :=
  ⟨⟨by decide, by decide⟩, ⟨fun k => k, by decide⟩,
    skeleton_preserves_registered_bones [("A", 0)] noParent noOffset
      ⟨by decide, by decide⟩ ⟨fun k => k, by decide⟩⟩

end ModelConverter
